import Mathlib

/-!
Shallow embedding of the core of `scripts/main.py` (class `VideoProcessor`)
and proofs checking the design document's claims about it.

Conventions:
* Times and durations are rationals (the source uses Python floats; none of the
  checked claims depends on floating-point rounding).
* A transcript segment's `end` attribute is called `stop` (`end` is a Lean
  keyword).
* Effectful parts (the retry loop, the manifest scrubber) are embedded as pure
  state-passing functions; external calls are modelled as oracle functions
  passed in as arguments.
-/

namespace Vernacia

/-- One transcript segment `(start, end, text)`. The source's `end` attribute is
named `stop` here because `end` is a Lean keyword. -/
structure Seg where
  start : ℚ
  stop : ℚ
  text : String
deriving DecidableEq

/-! ## SegmentPlanner: `find_smart_split_points` (main.py lines 193-251) -/

/-- The sentence-terminal symbols of the regex `[。！？]` (main.py line 201). -/
def sentence_terminal (c : Char) : Bool := c = '。' || c = '！' || c = '？'

/-- Whitespace trimming, embedding Python's `str.strip()`. -/
def stripChars (l : List Char) : List Char :=
  ((l.dropWhile Char.isWhitespace).reverse.dropWhile Char.isWhitespace).reverse

/-- `sentence_endings.search(segment.text.strip())` (main.py line 214): true iff
the stripped text contains a sentence-terminal symbol anywhere. -/
def has_sentence_ending (s : String) : Bool :=
  (stripChars s.toList).any sentence_terminal

/-- Candidate test from main.py lines 210-215: the segment's end lies within
±120 s of the target (`window = 120`, line 207) and its text passes
`has_sentence_ending`. -/
def is_candidate (t : ℚ) (s : Seg) : Bool :=
  decide (|s.stop - t| ≤ 120) && has_sentence_ending s.text

/-- The `(segment_end, distance)` candidate list built in scan order
(main.py lines 208-215). -/
def candidate_pairs (segs : List Seg) (t : ℚ) : List (ℚ × ℚ) :=
  (segs.filter (fun s => is_candidate t s)).map (fun s => (s.stop, |s.stop - t|))

/-- `min(candidates, key=lambda x: x[1])`: left fold keeping the first element
with minimal second component (Python's `min` keeps the earliest tie). -/
def pickMin (c : ℚ × ℚ) (cs : List (ℚ × ℚ)) : ℚ × ℚ :=
  cs.foldl (fun b x => if x.2 < b.2 then x else b) c

/-- Boundary for one target (main.py lines 205-225): the closest candidate end,
or the naive target verbatim if there is no candidate. -/
def smart_boundary (segs : List Seg) (t : ℚ) : ℚ :=
  match candidate_pairs segs t with
  | [] => t
  | c :: cs => (pickMin c cs).1

/-- `[(i * total_duration / num_parts) for i in range(1, num_parts)]`
(main.py line 198). -/
def target_splits (D : ℚ) (N : ℕ) : List ℚ :=
  (List.range (N - 1)).map (fun k => ((k + 1 : ℕ) : ℚ) * D / (N : ℚ))

/-- All smart split boundaries (main.py lines 203-225). -/
def smart_splits (segs : List Seg) (D : ℚ) (N : ℕ) : List ℚ :=
  (target_splits D N).map (smart_boundary segs)

/-- One split range (main.py lines 230-248): branch on first/last/middle part,
then clamp both bounds into `[0, total_duration]`. The branch order matches the
source (`if i == 0`, `elif i == num_parts - 1`, `else`). -/
def split_range (sp : List ℚ) (D O : ℚ) (N i : ℕ) : ℚ × ℚ :=
  let raw : ℚ × ℚ :=
    if i = 0 then
      (0, if 0 < sp.length then sp.getD 0 0 + O else D)
    else if i = N - 1 then
      (sp.getD (i - 1) 0 - O, D)
    else
      (sp.getD (i - 1) 0 - O, sp.getD i 0 + O)
  (max 0 raw.1, min D raw.2)

/-- The range-building loop of main.py lines 228-251. -/
def split_ranges (sp : List ℚ) (D : ℚ) (N : ℕ) (O : ℚ) : List (ℚ × ℚ) :=
  (List.range N).map (split_range sp D O N)

/-- `find_smart_split_points(segments, total_duration, num_parts,
overlap_seconds)` (main.py lines 193-251). `overlap_seconds` defaults to 15 in
the source and is passed explicitly here. The function performs no input
validation; `num_parts` is modelled as a natural number (`num_parts < 1` means
`num_parts = 0`, for which both Python loops are empty). No code path of the
Python function raises, so the embedding is a total function. -/
def find_smart_split_points (segs : List Seg) (D : ℚ) (N : ℕ) (O : ℚ) :
    List (ℚ × ℚ) :=
  split_ranges (smart_splits segs D N) D N O

/-- Modelled from the claim's words (for comparison with `has_sentence_ending`):
the trimmed text ENDS in a sentence-terminal symbol. -/
def spec_ends_sentence (s : String) : Bool :=
  match (stripChars s.toList).getLast? with
  | some c => sentence_terminal c
  | none => false

/-- Modelled from the claim's words: candidate test requiring the trimmed text
to end in a sentence-terminal symbol. -/
def spec_is_candidate (t : ℚ) (s : Seg) : Bool :=
  decide (|s.stop - t| ≤ 120) && spec_ends_sentence s.text

/-- Modelled from the claim's words: the boundary-selection rule of claim C3,
identical to `smart_boundary` except for the ends-in candidate test. -/
def spec_smart_boundary (segs : List Seg) (t : ℚ) : ℚ :=
  match (segs.filter (fun s => spec_is_candidate t s)).map
      (fun s => (s.stop, |s.stop - t|)) with
  | [] => t
  | c :: cs => (pickMin c cs).1

/-! ## TimelineSynchronizer: `split_srt` (main.py lines 283-318) -/

/-- The per-range segment selection and re-timing of main.py lines 287-310:
half-open overlap test, rebase by `part_start`, an inner sanity guard, clamping,
and the final degenerate-segment filter. Returns the re-timed segments of one
part in order. -/
def split_srt_part (segs : List Seg) (part_start part_end : ℚ) : List Seg :=
  segs.filterMap (fun s =>
    if s.start < part_end ∧ part_start < s.stop then
      let adjusted_start := s.start - part_start
      let adjusted_stop := s.stop - part_start
      if 0 < adjusted_stop ∧ adjusted_start < part_end - part_start then
        let a := max 0 adjusted_start
        let b := min (part_end - part_start) adjusted_stop
        if a < b then some ⟨a, b, s.text⟩ else none
      else none
    else none)

/-- `split_srt` over all ranges: one (possibly empty) re-timed segment list per
range, in range order. -/
def split_srt (segs : List Seg) (ranges : List (ℚ × ℚ)) : List (List Seg) :=
  ranges.map (fun r => split_srt_part segs r.1 r.2)

/-- Modelled from the claim's words (C4): include on the half-open overlap
test, rebase, clamp, and drop the segment when the clamped end is not greater
than the clamped start — without the source's redundant inner guard. -/
def spec_split_srt_part (segs : List Seg) (part_start part_end : ℚ) :
    List Seg :=
  segs.filterMap (fun s =>
    if s.start < part_end ∧ part_start < s.stop then
      let a := max 0 (s.start - part_start)
      let b := min (part_end - part_start) (s.stop - part_start)
      if a < b then some ⟨a, b, s.text⟩ else none
    else none)

/-! ## Artifact pairing in `process_video` (main.py lines 312-316, 355-363)

`split_video` produces one video part per split range, in range order.
`split_srt` (lines 312-316) appends an SRT file ONLY for parts whose segment
list is nonempty. `process_video` (lines 357-361) then pairs them positionally
with `zip(video_parts, srt_parts)`. We model an artifact pair as
`(video part index, index of the part whose segments produced the SRT)`. -/

/-- Indices of the ranges whose part has at least one qualifying segment — the
parts for which main.py lines 312-315 write an SRT file, in order. -/
def srt_output_indices (segs : List Seg) (ranges : List (ℚ × ℚ)) : List ℕ :=
  (List.range ranges.length).filter (fun i =>
    !(split_srt_part segs (ranges.getD i (0, 0)).1 (ranges.getD i (0, 0)).2).isEmpty)

/-- The `zip(video_parts, srt_parts)` pairing recorded into `processed_files`
(main.py lines 357-361), as index pairs. -/
def processed_files (segs : List Seg) (ranges : List (ℚ × ℚ)) : List (ℕ × ℕ) :=
  (List.range ranges.length).zip (srt_output_indices segs ranges)

/-! ## RetryController: `download_with_retry` (main.py lines 410-431)

The download attempt is an oracle `att : ℕ → Except E A` giving the outcome of
the k-th invocation, and the random jitter is an oracle `jit : ℕ → ℚ`. The
embedding returns the overall outcome, the number of download invocations, and
the list of back-off delays slept, in order. Attempt `k` is last when the fuel
runs out (`k = max_retries`), in which case its error is re-raised. -/

def retry_go {E A : Type} (att : ℕ → Except E A) (jit : ℕ → ℚ) :
    ℕ → ℕ → Except E A × ℕ × List ℚ
  | 0, k =>
    (att k, 1, if 0 < k then [2 ^ k + jit k] else [])
  | fuel + 1, k =>
    let ds : List ℚ := if 0 < k then [2 ^ k + jit k] else []
    match att k with
    | Except.ok a => (Except.ok a, 1, ds)
    | Except.error _ =>
      let r := retry_go att jit fuel (k + 1)
      (r.1, r.2.1 + 1, ds ++ r.2.2)

/-- `download_with_retry(url, output_dir, max_retries)` (main.py lines
410-431): attempts `0 .. max_retries`; sleeps `2^attempt + jitter` before every
attempt except the first; returns the first success; re-raises the final
attempt's error. -/
def download_with_retry {E A : Type} (att : ℕ → Except E A) (jit : ℕ → ℚ)
    (max_retries : ℕ) : Except E A × ℕ × List ℚ :=
  retry_go att jit max_retries 0

/-- The delay list accumulated from attempt `k` over `i` further attempts. -/
def delaySeq (jit : ℕ → ℚ) : ℕ → ℕ → List ℚ
  | k, 0 => if 0 < k then [2 ^ k + jit k] else []
  | k, i + 1 => (if 0 < k then [2 ^ k + jit k] else []) ++ delaySeq jit (k + 1) i

/-! ## CrashRecoveryScrubber: `cleanup_interrupted_downloads` (main.py lines
377-408) and the start of `run` (lines 433-436)

A `Job` models the two VideoJob fields the scrubber mutates (`status`,
`error`); statuses are the manifest's literal strings. A `Playlist` models one
playlist's job list together with the file names in its `videos/` working
directory (shared by the playlist's jobs, as in the source). -/

structure Job where
  status : String
  error : Option String
deriving DecidableEq

structure Playlist where
  videos : List Job
  dirFiles : List String
deriving DecidableEq

/-- A file matched by the `*.part` / `*.ytdl` globs of main.py lines 392-397. -/
def isIncompleteFile (f : String) : Bool :=
  (".part".toList).isSuffixOf f.toList || (".ytdl".toList).isSuffixOf f.toList

/-- The per-playlist loop of main.py lines 386-402: walk the jobs in order; for
each job with status `"processing"`, delete the partial-download files from the
playlist's working directory, reset the job to `pending` with no error, and
count it. Returns the new job list, the new directory contents, and the count.
(Fields of a VideoJob other than `status`/`error` are untouched by the source
loop and are not modelled.) -/
def scrubJobs : List Job → List String → List Job × List String × ℕ
  | [], dir => ([], dir, 0)
  | j :: rest, dir =>
    if j.status = "processing" then
      let dir' := dir.filter (fun f => !isIncompleteFile f)
      let r := scrubJobs rest dir'
      (⟨"pending", none⟩ :: r.1, r.2.1, r.2.2 + 1)
    else
      let r := scrubJobs rest dir
      (j :: r.1, r.2.1, r.2.2)

/-- `cleanup_interrupted_downloads` (main.py lines 377-408): scrub every
playlist and total the cleaned count. -/
def cleanup_interrupted_downloads (m : List Playlist) : List Playlist × ℕ :=
  (m.map (fun p =>
      { videos := (scrubJobs p.videos p.dirFiles).1
        dirFiles := (scrubJobs p.videos p.dirFiles).2.1 }),
   (m.map (fun p => (scrubJobs p.videos p.dirFiles).2.2)).sum)

/-- The start of `run` (main.py lines 433-436): scrub first, and persist the
manifest once — only when at least one job was cleaned (lines 404-405). The
second component is the trace of manifest saves, each the full document written;
the first component is the manifest the scheduler then loads and selects
pending jobs from. -/
def run_start (m : List Playlist) : List Playlist × List (List Playlist) :=
  let r := cleanup_interrupted_downloads m
  (r.1, if 0 < r.2 then [r.1] else [])

/-! ## Basic facts about the planner's output shape -/

lemma smart_splits_length (segs : List Seg) (D : ℚ) (N : ℕ) :
    (smart_splits segs D N).length = N - 1 := by
  rw [smart_splits, List.length_map, target_splits, List.length_map,
    List.length_range]

lemma find_smart_split_points_length (segs : List Seg) (D : ℚ) (N : ℕ) (O : ℚ) :
    (find_smart_split_points segs D N O).length = N := by
  simp [find_smart_split_points, split_ranges]

lemma mem_split_ranges {sp : List ℚ} {D O : ℚ} {N : ℕ} {r : ℚ × ℚ} :
    r ∈ split_ranges sp D N O ↔ ∃ i, i < N ∧ r = split_range sp D O N i := by
  simp [split_ranges, List.mem_map, List.mem_range, eq_comm]

lemma getElem?_split_ranges (sp : List ℚ) (D O : ℚ) (N i : ℕ) (hi : i < N) :
    (split_ranges sp D N O)[i]? = some (split_range sp D O N i) := by
  simp [split_ranges, List.getElem?_map, List.getElem?_range, hi]

lemma split_range_fst_of_ne_zero (sp : List ℚ) (D O : ℚ) (N : ℕ) {i : ℕ}
    (hi : i ≠ 0) :
    (split_range sp D O N i).1 = max 0 (sp.getD (i - 1) 0 - O) := by
  unfold split_range
  rw [if_neg hi]
  split <;> rfl

lemma split_range_nonneg_le (sp : List ℚ) (D O : ℚ) (N i : ℕ) :
    0 ≤ (split_range sp D O N i).1 ∧ (split_range sp D O N i).2 ≤ D := by
  constructor <;> simp [split_range]

/-- Core coverage lemma: for any boundary list of the right length, the ranges
built by the loop of main.py lines 228-251 cover exactly `[0, D]`. -/
lemma ranges_cover (sp : List ℚ) (D O : ℚ) (N : ℕ) (hN : 1 ≤ N)
    (hlen : sp.length = N - 1) (hO : 0 ≤ O) (x : ℚ) :
    (∃ r ∈ split_ranges sp D N O, r.1 ≤ x ∧ x ≤ r.2) ↔ (0 ≤ x ∧ x ≤ D) := by
  constructor
  · rintro ⟨r, hr, hx1, hx2⟩
    rw [mem_split_ranges] at hr
    obtain ⟨i, _, rfl⟩ := hr
    exact ⟨le_trans (split_range_nonneg_le sp D O N i).1 hx1,
      le_trans hx2 (split_range_nonneg_le sp D O N i).2⟩
  · rintro ⟨hx0, hxD⟩
    have hP0 : (split_range sp D O N 0).1 ≤ x := by
      simpa [split_range] using hx0
    set P : ℕ → Prop := fun j => (split_range sp D O N j).1 ≤ x with hPdef
    have hP0' : P 0 := hP0
    set j := Nat.findGreatest P (N - 1) with hjdef
    have hPj : P j := Nat.findGreatest_spec (Nat.zero_le _) hP0'
    have hjle : j ≤ N - 1 := Nat.findGreatest_le _
    refine ⟨split_range sp D O N j, mem_split_ranges.mpr ⟨j, by omega, rfl⟩,
      hPj, ?_⟩
    by_cases hlast : j = N - 1
    · rcases Nat.lt_or_ge N 2 with hN1 | hN2
      · have hj0 : j = 0 := by omega
        have hsp : ¬ 0 < sp.length := by
          rw [hlen]
          omega
        simp [hj0, split_range, hsp]
        exact hxD
      · have hj0 : j ≠ 0 := by omega
        have : (split_range sp D O N j).2 = min D D := by
          unfold split_range
          rw [if_neg hj0, if_pos hlast]
        rw [this, min_self]
        exact hxD
    · have hjlt : j < N - 1 := lt_of_le_of_ne hjle hlast
      have h1 : Nat.findGreatest P (N - 1) < j + 1 := by omega
      have h2 : j + 1 ≤ N - 1 := by omega
      have hnot : ¬ P (j + 1) := Nat.findGreatest_is_greatest h1 h2
      have hxlt : x < (split_range sp D O N (j + 1)).1 := lt_of_not_le hnot
      rw [split_range_fst_of_ne_zero sp D O N (Nat.succ_ne_zero j)] at hxlt
      have hgt : x < sp.getD j 0 - O := by
        by_contra hcon
        push_neg at hcon
        exact absurd hxlt (not_lt.mpr (max_le hx0 hcon))
      have hend : (split_range sp D O N j).2 = min D (sp.getD j 0 + O) := by
        by_cases hj0 : j = 0
        · have hsp : 0 < sp.length := by
            rw [hlen]
            omega
          unfold split_range
          rw [if_pos hj0, if_pos hsp]
          simp [hj0]
        · unfold split_range
          rw [if_neg hj0, if_neg hlast]
      rw [hend]
      refine le_min hxD (le_of_lt (lt_of_lt_of_le hgt ?_))
      linarith

/-- C1 (confirmed): for every transcript, every duration `D > 0`, every part
count `N ≥ 1` and every nonnegative overlap, the ranges returned by
`find_smart_split_points` cover `[0, D]` with no gaps: a point `x` belongs to
some returned range iff `0 ≤ x ≤ D`, so the union of the ranges equals
`[0, D]` for every choice of smart or fallback boundaries. -/
theorem claim1_union_eq (segs : List Seg) (D : ℚ) (N : ℕ) (O : ℚ)
    (_hD : 0 < D) (hN : 1 ≤ N) (hO : 0 ≤ O) (x : ℚ) :
    (∃ r ∈ find_smart_split_points segs D N O, r.1 ≤ x ∧ x ≤ r.2) ↔
      (0 ≤ x ∧ x ≤ D) :=
  ranges_cover (smart_splits segs D N) D O N hN (smart_splits_length segs D N)
    hO x

/-- Witness for C1 at `segs = []`, `D = 600`, `N = 2`, `O = 15`, `x = 300`. -/
theorem claim1_union_eq_witness :
    (∃ r ∈ find_smart_split_points [] 600 2 15, r.1 ≤ 300 ∧ (300 : ℚ) ≤ r.2) ↔
      ((0 : ℚ) ≤ 300 ∧ (300 : ℚ) ≤ 600) :=
  claim1_union_eq [] 600 2 15 (by decide) (by decide) (by decide) 300

/-- C6 (confirmed): for every transcript, duration and `N ≥ 1`,
`find_smart_split_points` returns exactly `N` ranges, the first starting at 0
and the last ending at `D`. -/
theorem claim6_exact_ranges (segs : List Seg) (D : ℚ) (N : ℕ) (O : ℚ)
    (hN : 1 ≤ N) :
    (find_smart_split_points segs D N O).length = N ∧
    (∀ r, (find_smart_split_points segs D N O)[0]? = some r → r.1 = 0) ∧
    (∀ r, (find_smart_split_points segs D N O)[N - 1]? = some r → r.2 = D) := by
  refine ⟨find_smart_split_points_length segs D N O, ?_, ?_⟩
  · intro r hr
    rw [find_smart_split_points,
      getElem?_split_ranges _ _ _ _ _ (by omega)] at hr
    obtain rfl : split_range (smart_splits segs D N) D O N 0 = r :=
      Option.some.inj hr
    simp [split_range]
  · intro r hr
    rw [find_smart_split_points,
      getElem?_split_ranges _ _ _ _ _ (by omega)] at hr
    obtain rfl : split_range (smart_splits segs D N) D O N (N - 1) = r :=
      Option.some.inj hr
    rcases Nat.lt_or_ge N 2 with hN1 | hN2
    · have h01 : N - 1 = 0 := by omega
      have hsp : ¬ 0 < (smart_splits segs D N).length := by
        rw [smart_splits_length]
        omega
      simp [split_range, h01, hsp]
    · have hj0 : N - 1 ≠ 0 := by omega
      unfold split_range
      rw [if_neg hj0, if_pos rfl]
      simp

/-- Witness for C6 at `segs = []`, `D = 600`, `N = 2`, `O = 15`. -/
theorem claim6_exact_ranges_witness :
    (find_smart_split_points [] 600 2 15).length = 2 :=
  (claim6_exact_ranges [] 600 2 15 (by decide)).1

/-- C9 is false as stated: `find_smart_split_points` performs no input
validation and never fails. At `N = 0 < 1` it returns the empty list — a range
list, not a configuration error (the Python loops `range(1, 0)` and `range(0)`
are empty and no exception is raised) — and at `D = -5 ≤ 0` it returns two
ranges instead of an invalid-input error. -/
theorem claim9_validation_cex :
    find_smart_split_points [] 100 0 15 = [] ∧
    find_smart_split_points [] (-5) 2 15 = [(0, -5), (0, -5)] := by
  constructor
  · simp [find_smart_split_points, split_ranges]
  · have hs : smart_splits [] (-5) 2 = [-5 / 2] := by
      simp [smart_splits, target_splits, smart_boundary, candidate_pairs,
        List.range_succ]
    rw [find_smart_split_points, hs]
    simp [split_ranges, split_range, List.range_succ]
    norm_num

/-- C9 (corrected): `find_smart_split_points` raises neither a configuration
error for `N < 1` nor an invalid-input error for `D ≤ 0`; it always returns a
range list — empty for `N = 0`, and of length `N` even when `D ≤ 0`. -/
theorem claim9_validation_amended (segs : List Seg) (D : ℚ) (N : ℕ) (O : ℚ) :
    (N = 0 → find_smart_split_points segs D N O = []) ∧
    (D ≤ 0 → 1 ≤ N → (find_smart_split_points segs D N O).length = N) := by
  constructor
  · intro h
    subst h
    simp [find_smart_split_points, split_ranges]
  · intro _ _
    exact find_smart_split_points_length segs D N O

/-- Witness for the amended C9 at both failure inputs. -/
theorem claim9_validation_amended_witness :
    find_smart_split_points [] 100 0 15 = [] ∧
    (find_smart_split_points [] (-5) 2 15).length = 2 :=
  ⟨(claim9_validation_amended [] 100 0 15).1 rfl,
   (claim9_validation_amended [] (-5) 2 15).2 (by decide) (by decide)⟩

/-! ## Concrete planner evaluations used by counterexamples and witnesses -/

/-- With no transcript, `D = 600`, `N = 2`: the single boundary falls back to
the naive target 300 (the scenario of spec §8). -/
lemma smart_splits_empty_600 : smart_splits [] 600 2 = [300] := by
  simp [smart_splits, target_splits, smart_boundary, candidate_pairs,
    List.range_succ]
  norm_num

/-- The ranges of the spec §8 scenario: `[0, 315]` and `[285, 600]`. -/
lemma ranges_empty_600 :
    find_smart_split_points [] 600 2 15 = [(0, 315), (285, 600)] := by
  rw [find_smart_split_points, smart_splits_empty_600]
  simp [split_ranges, split_range, List.range_succ]
  norm_num

/-- A segment ending at 130 s with sentence-terminal text is within the ±120 s
window of the 50 s target of a 100 s / 2-part job, so it becomes the boundary
even though it lies past the whole video. -/
lemma smart_splits_seg130 : smart_splits [⟨120, 130, "好。"⟩] 100 2 = [130] := by
  have ht : target_splits 100 2 = [50] := by
    simp [target_splits, List.range_succ]
    norm_num
  have hcand : is_candidate 50 ⟨120, 130, "好。"⟩ = true := by
    have hpunct : has_sentence_ending "好。" = true := by decide
    simp [is_candidate, hpunct]
    norm_num
  have hpairs : candidate_pairs [⟨120, 130, "好。"⟩] 50 = [(130, 80)] := by
    simp [candidate_pairs, List.filter_cons, hcand]
    norm_num
  simp [smart_splits, ht, smart_boundary, hpairs, pickMin]

lemma ranges_seg130 :
    find_smart_split_points [⟨120, 130, "好。"⟩] 100 2 15 =
      [(0, 100), (115, 100)] := by
  rw [find_smart_split_points, smart_splits_seg130]
  simp [split_ranges, split_range, List.range_succ]
  norm_num

/-! ## C10: ranges are not always well-ordered pairs -/

/-- C10 is false as stated: with the transcript `[(120, 130, "好。")]`,
`D = 100`, `N = 2`, the chosen boundary 130 exceeds `D + O`, and the returned
second range is `(115, 100)` with start 115 > end 100. -/
theorem claim10_start_le_end_cex :
    ((115 : ℚ), (100 : ℚ)) ∈ find_smart_split_points [⟨120, 130, "好。"⟩] 100 2 15 ∧
    ¬ ((115 : ℚ) ≤ 100) := by
  rw [ranges_seg130]
  exact ⟨by simp, by decide⟩

/-- C10 (corrected): every returned range `(start, end)` satisfies
`start ≤ end` provided the chosen boundaries are monotone nondecreasing and
each lies within `[-O, D + O]` — the bounds are clamped only against 0 and `D`,
never against each other, so a boundary beyond `D + O` (or boundaries that
decrease by more than `2·O`) produces an inverted range. -/
theorem claim10_start_le_end_amended (segs : List Seg) (D : ℚ) (N : ℕ) (O : ℚ)
    (hN : 1 ≤ N) (hD : 0 < D) (hO : 0 ≤ O)
    (hsorted : (smart_splits segs D N).Sorted (· ≤ ·))
    (hbound : ∀ s ∈ smart_splits segs D N, -O ≤ s ∧ s ≤ D + O) :
    ∀ r ∈ find_smart_split_points segs D N O, r.1 ≤ r.2 := by
  intro r hr
  rw [find_smart_split_points, mem_split_ranges] at hr
  obtain ⟨i, hiN, rfl⟩ := hr
  have hlen := smart_splits_length segs D N
  set sp := smart_splits segs D N with hspdef
  show (split_range sp D O N i).1 ≤ (split_range sp D O N i).2
  unfold split_range
  dsimp only
  split_ifs with h1 h2 h3
  · -- i = 0 and the boundary list is nonempty
    dsimp only
    have hmem : sp.getD 0 0 ∈ sp := by
      rw [List.getD_eq_getElem _ _ h2]
      exact List.getElem_mem h2
    have hb := hbound _ hmem
    rw [max_self]
    exact le_min hD.le (by linarith [hb.1])
  · -- i = 0 and the boundary list is empty
    dsimp only
    rw [max_self, min_self]
    exact hD.le
  · -- i = N - 1 ≠ 0
    dsimp only
    have hmem : sp.getD (i - 1) 0 ∈ sp := by
      have hlt : i - 1 < sp.length := by
        rw [hlen]
        omega
      rw [List.getD_eq_getElem _ _ hlt]
      exact List.getElem_mem hlt
    have hb := hbound _ hmem
    rw [min_self]
    exact max_le hD.le (by linarith [hb.2])
  · -- middle part
    dsimp only
    have hlt1 : i - 1 < sp.length := by
      rw [hlen]
      omega
    have hlt2 : i < sp.length := by
      rw [hlen]
      omega
    have hmem1 : sp.getD (i - 1) 0 ∈ sp := by
      rw [List.getD_eq_getElem _ _ hlt1]
      exact List.getElem_mem hlt1
    have hmem2 : sp.getD i 0 ∈ sp := by
      rw [List.getD_eq_getElem _ _ hlt2]
      exact List.getElem_mem hlt2
    have hb1 := hbound _ hmem1
    have hb2 := hbound _ hmem2
    have hmono : sp.getD (i - 1) 0 ≤ sp.getD i 0 := by
      rw [List.getD_eq_getElem _ _ hlt1, List.getD_eq_getElem _ _ hlt2]
      exact List.Sorted.rel_get_of_lt hsorted (by simpa using Nat.sub_lt (by omega) one_pos)
    exact max_le (le_min hD.le (by linarith [hb2.1]))
      (le_min (by linarith [hb1.2]) (by linarith))

/-- Witness for the amended C10 at `segs = []`, `D = 600`, `N = 2`, `O = 15`,
applied to the first returned range `(0, 315)`. -/
theorem claim10_start_le_end_amended_witness : (0 : ℚ) ≤ 315 :=
  claim10_start_le_end_amended [] 600 2 15 (by decide) (by decide) (by decide)
    (by rw [smart_splits_empty_600]; simp)
    (by
      rw [smart_splits_empty_600]
      intro s hs
      rw [List.mem_singleton] at hs
      subst hs
      exact ⟨by norm_num, by norm_num⟩)
    (0, 315) (by rw [ranges_empty_600]; simp)

/-! ## C2: the actual overlap of consecutive ranges is `2·O`, not `O` -/

/-- C2 is false as stated: in the spec's own §8 scenario (`D = 600`, `N = 2`,
`O = 15`, no usable transcript) the consecutive ranges are `(0, 315)` and
`(285, 600)`; neither internal bound is clamped, yet they overlap by
`315 − 285 = 30 = 2·O`, not by `O = 15`. -/
theorem claim2_overlap_cex :
    find_smart_split_points [] 600 2 15 = [(0, 315), (285, 600)] ∧
    (315 : ℚ) - 285 ≠ 15 :=
  ⟨ranges_empty_600, by norm_num⟩

/-- C2 (corrected): consecutive ranges overlap by exactly `2·O` (the code adds
`O` on each side of the shared boundary), except where a bound is clamped at 0
or at `D`; the unclamped case is expressed by the hypotheses
`0 ≤ s - O` and `s + O ≤ D` on the shared boundary `s`. -/
theorem claim2_overlap_amended (segs : List Seg) (D : ℚ) (N : ℕ) (O : ℚ)
    {i : ℕ} {a b c d s : ℚ}
    (hr1 : (find_smart_split_points segs D N O)[i]? = some (a, b))
    (hr2 : (find_smart_split_points segs D N O)[i + 1]? = some (c, d))
    (hs : (smart_splits segs D N)[i]? = some s)
    (hlo : 0 ≤ s - O) (hhi : s + O ≤ D) :
    b - c = 2 * O := by
  have hiN : i + 1 < N := by
    by_contra h
    push_neg at h
    rw [find_smart_split_points, List.getElem?_eq_none
      (by rw [split_ranges, List.length_map, List.length_range]; omega)] at hr2
    exact Option.noConfusion hr2
  obtain ⟨hisp, hget⟩ := List.getElem?_eq_some.mp hs
  have hgetD : (smart_splits segs D N).getD i 0 = s := by
    rw [List.getD_eq_getElem _ _ hisp, hget]
  rw [find_smart_split_points, getElem?_split_ranges _ _ _ _ _ (by omega)] at hr1
  rw [find_smart_split_points, getElem?_split_ranges _ _ _ _ _ hiN] at hr2
  have hlen := smart_splits_length segs D N
  have hiN1 : i ≠ N - 1 := by
    rw [hlen] at hisp
    omega
  have hb : b = s + O := by
    have h2 := congrArg Prod.snd (Option.some.inj hr1)
    dsimp at h2
    rw [← h2]
    by_cases hi0 : i = 0
    · subst hi0
      unfold split_range
      rw [if_pos rfl]
      dsimp only
      rw [if_pos (by omega : 0 < (smart_splits segs D N).length), hgetD]
      exact min_eq_right hhi
    · unfold split_range
      rw [if_neg hi0, if_neg hiN1]
      dsimp only
      rw [hgetD]
      exact min_eq_right hhi
  have hc : c = s - O := by
    have h1 := congrArg Prod.fst (Option.some.inj hr2)
    dsimp at h1
    rw [← h1, split_range_fst_of_ne_zero _ _ _ _ (Nat.succ_ne_zero i)]
    have : i + 1 - 1 = i := by omega
    rw [this, hgetD]
    exact max_eq_right hlo
  rw [hb, hc]
  ring

/-! ## C4: the TimelineSynchronizer selection, rebase, clamp and filter -/

/-- C4 (confirmed): `split_srt` includes, per range, exactly the segments
passing the half-open overlap test; it rebases them by `part_start`, clamps the
start at 0 and the end at the part length, discards segments whose clamped end
is not past the clamped start (the source's extra inner guard at main.py line
299 is implied by the overlap test, so the output equals the claim's
description `spec_split_srt_part`), and consequently never emits a segment
with `adjustedEnd ≤ adjustedStart`. -/
theorem claim4_split_srt (segs : List Seg) (ps pe : ℚ) :
    split_srt_part segs ps pe = spec_split_srt_part segs ps pe ∧
    ∀ u ∈ split_srt_part segs ps pe, u.start < u.stop := by
  have hEq : split_srt_part segs ps pe = spec_split_srt_part segs ps pe := by
    unfold split_srt_part spec_split_srt_part
    apply List.filterMap_congr
    intro s _
    by_cases hov : s.start < pe ∧ ps < s.stop
    · rw [if_pos hov, if_pos hov]
      have hg : 0 < s.stop - ps ∧ s.start - ps < pe - ps :=
        ⟨by linarith [hov.2], by linarith [hov.1]⟩
      rw [if_pos hg]
    · rw [if_neg hov, if_neg hov]
  refine ⟨hEq, ?_⟩
  intro u hu
  unfold split_srt_part at hu
  rw [List.mem_filterMap] at hu
  obtain ⟨s, _, hsome⟩ := hu
  simp only [] at hsome
  split_ifs at hsome with h1 h2 h3
  · obtain rfl : Seg.mk (max 0 (s.start - ps)) (min (pe - ps) (s.stop - ps)) s.text = u :=
      Option.some.inj hsome
    exact h3

/-- Evaluation of one part: the segment `(400, 410)` against the range
`(285, 600)` is rebased to `(115, 125)`. -/
lemma split_srt_part_eval :
    split_srt_part [⟨400, 410, "字"⟩] 285 600 = [⟨115, 125, "字"⟩] := by
  norm_num [split_srt_part, List.filterMap_cons]

/-- Witness for C4: the re-timed segment `(115, 125)` produced for range
`(285, 600)` from the segment `(400, 410)` has start < end. -/
theorem claim4_split_srt_witness : (115 : ℚ) < 125 :=
  (claim4_split_srt [⟨400, 410, "字"⟩] 285 600).2 ⟨115, 125, "字"⟩
    (by rw [split_srt_part_eval]; exact List.mem_singleton_self _)

/-! ## C5: the artifact pairing of `process_video` misaligns on empty parts -/

/-- C5 fails on the code (the claim matches the spec's intent, so this is a
code bug): with one transcript segment `(400, 410)` in a 600 s / 2-part job,
part 0 (range `(0, 315)`) has zero qualifying segments, so `split_srt` writes
only part 1's SRT file; `zip(video_parts, srt_parts)` then records exactly one
artifact pairing video part 0 with the subtitle generated from range 1 —
`(0, 1)` instead of same-index pairs — and video part 1 gets no artifact at
all. -/
theorem claim5_pairing_bug :
    processed_files [⟨400, 410, "字"⟩]
      (find_smart_split_points [⟨400, 410, "字"⟩] 600 2 15) = [(0, 1)] := by
  have hpunct : has_sentence_ending "字" = false := by decide
  have hs : smart_splits [⟨400, 410, "字"⟩] 600 2 = [300] := by
    simp [smart_splits, target_splits, smart_boundary, candidate_pairs,
      is_candidate, hpunct, List.range_succ]
    norm_num
  have hranges : find_smart_split_points [⟨400, 410, "字"⟩] 600 2 15 =
      [(0, 315), (285, 600)] := by
    rw [find_smart_split_points, hs]
    simp [split_ranges, split_range, List.range_succ]
    norm_num
  have h0 : split_srt_part [⟨400, 410, "字"⟩] 0 315 = [] := by
    norm_num [split_srt_part, List.filterMap_cons]
  rw [hranges]
  simp [processed_files, srt_output_indices, List.range_succ, h0,
    split_srt_part_eval]

/-- Witness for the amended C2: the §8 scenario ranges `(0, 315)` and
`(285, 600)` around the unclamped boundary 300 overlap by `315 - 285 = 30`. -/
theorem claim2_overlap_amended_witness : (315 : ℚ) - 285 = 2 * 15 :=
  @claim2_overlap_amended [] 600 2 15 0 0 315 285 600 300
    (by rw [ranges_empty_600]; rfl)
    (by rw [ranges_empty_600]; rfl)
    (by rw [smart_splits_empty_600]; rfl)
    (by norm_num) (by norm_num)

/-! ## C7: the retry/backoff policy -/

lemma retry_go_calls {E A : Type} (att : ℕ → Except E A) (jit : ℕ → ℚ) :
    ∀ fuel k, (retry_go att jit fuel k).2.1 ≤ fuel + 1 := by
  intro fuel
  induction fuel with
  | zero => intro k; simp [retry_go]
  | succ fuel ih =>
    intro k
    unfold retry_go
    cases h : att k with
    | ok a => simp
    | error e =>
      dsimp only
      have := ih (k + 1)
      omega

lemma retry_go_success {E A : Type} (att : ℕ → Except E A) (jit : ℕ → ℚ) :
    ∀ i fuel k a, i ≤ fuel →
      (∀ j, j < i → ∃ e, att (k + j) = Except.error e) →
      att (k + i) = Except.ok a →
      retry_go att jit fuel k = (Except.ok a, i + 1, delaySeq jit k i) := by
  intro i
  induction i with
  | zero =>
    intro fuel k a _ _ hok
    rw [Nat.add_zero] at hok
    cases fuel with
    | zero => simp [retry_go, hok, delaySeq]
    | succ fuel => simp [retry_go, hok, delaySeq]
  | succ i ih =>
    intro fuel k a hfuel herr hok
    cases fuel with
    | zero => omega
    | succ fuel =>
      obtain ⟨e0, he0⟩ := herr 0 (by omega)
      rw [Nat.add_zero] at he0
      have herr' : ∀ j, j < i → ∃ e, att (k + 1 + j) = Except.error e := by
        intro j hj
        obtain ⟨e, he⟩ := herr (j + 1) (by omega)
        exact ⟨e, by rw [← he]; ring_nf⟩
      have hok' : att (k + 1 + i) = Except.ok a := by
        rw [← hok]
        ring_nf
      have hrec := ih fuel (k + 1) a (by omega) herr' hok'
      unfold retry_go
      rw [he0]
      dsimp only
      rw [hrec]
      rfl

lemma retry_go_allfail {E A : Type} (att : ℕ → Except E A) (jit : ℕ → ℚ) :
    ∀ fuel k e, (∀ j, j < fuel → ∃ e', att (k + j) = Except.error e') →
      att (k + fuel) = Except.error e →
      (retry_go att jit fuel k).1 = Except.error e := by
  intro fuel
  induction fuel with
  | zero =>
    intro k e _ hlast
    rw [Nat.add_zero] at hlast
    simp [retry_go, hlast]
  | succ fuel ih =>
    intro k e herr hlast
    obtain ⟨e0, he0⟩ := herr 0 (by omega)
    rw [Nat.add_zero] at he0
    unfold retry_go
    rw [he0]
    dsimp only
    refine ih (k + 1) e ?_ ?_
    · intro j hj
      obtain ⟨e', he'⟩ := herr (j + 1) (by omega)
      exact ⟨e', by rw [← he']; ring_nf⟩
    · rw [← hlast]
      ring_nf

lemma delaySeq_succ_eq (jit : ℕ → ℚ) :
    ∀ i k, delaySeq jit (k + 1) i =
      (List.range (i + 1)).map (fun j => 2 ^ (k + 1 + j) + jit (k + 1 + j)) := by
  intro i
  induction i with
  | zero => intro k; simp [delaySeq, List.range_succ]
  | succ i ih =>
    intro k
    rw [delaySeq, ih (k + 1), if_pos (Nat.succ_pos k), List.singleton_append]
    conv_rhs => rw [List.range_succ_eq_map]
    rw [List.map_cons, List.map_map]
    simp only [List.cons.injEq]
    constructor
    · norm_num
    · apply List.map_congr_left
      intro a _
      have h : k + 1 + 1 + a = k + 1 + (a + 1) := by omega
      simp [Function.comp, h]

lemma delaySeq_zero_eq (jit : ℕ → ℚ) (i : ℕ) :
    delaySeq jit 0 i = (List.range i).map (fun j => 2 ^ (j + 1) + jit (j + 1)) := by
  cases i with
  | zero => simp [delaySeq]
  | succ i =>
    rw [delaySeq, delaySeq_succ_eq jit i 0, if_neg (lt_irrefl 0),
      List.nil_append]
    apply List.map_congr_left
    intro a _
    have h : 0 + 1 + a = a + 1 := by omega
    rw [h]

lemma retry_go_delays_shape {E A : Type} (att : ℕ → Except E A) (jit : ℕ → ℚ) :
    ∀ fuel k, ∀ d ∈ (retry_go att jit fuel k).2.2, ∃ j, 1 ≤ j ∧ d = 2 ^ j + jit j := by
  intro fuel
  induction fuel with
  | zero =>
    intro k d hd
    simp only [retry_go] at hd
    by_cases hk : 0 < k
    · rw [if_pos hk] at hd
      rw [List.mem_singleton] at hd
      exact ⟨k, by omega, hd⟩
    · rw [if_neg hk] at hd
      exact absurd hd (List.not_mem_nil d)
  | succ fuel ih =>
    intro k d hd
    unfold retry_go at hd
    cases h : att k with
    | ok a =>
      rw [h] at hd
      dsimp only at hd
      by_cases hk : 0 < k
      · rw [if_pos hk, List.mem_singleton] at hd
        exact ⟨k, by omega, hd⟩
      · rw [if_neg hk] at hd
        exact absurd hd (List.not_mem_nil d)
    | error e =>
      rw [h] at hd
      dsimp only at hd
      rw [List.mem_append] at hd
      rcases hd with hd | hd
      · by_cases hk : 0 < k
        · rw [if_pos hk, List.mem_singleton] at hd
          exact ⟨k, by omega, hd⟩
        · rw [if_neg hk] at hd
          exact absurd hd (List.not_mem_nil d)
      · exact ih (k + 1) d hd

/-- C7 (confirmed): `download_with_retry` makes at most `max_retries + 1`
download invocations; if the first success is at attempt `i` it returns that
result immediately after exactly `i + 1` invocations, having slept
`2^k + jitter(k)` before each retry `k = 1 .. i` and not before the first
attempt; if every attempt fails it propagates the final attempt's error
unchanged; and under the modelling assumption that each jitter value lies in
`[0, 2)`, every slept delay lies in `[2^k, 2^k + 2)` for some retry index
`k ≥ 1`. -/
theorem claim7_retry_policy {E A : Type} (att : ℕ → Except E A) (jit : ℕ → ℚ)
    (max_retries : ℕ) :
    (download_with_retry att jit max_retries).2.1 ≤ max_retries + 1 ∧
    (∀ i a, i ≤ max_retries → (∀ j, j < i → ∃ e, att j = Except.error e) →
      att i = Except.ok a →
      download_with_retry att jit max_retries =
        (Except.ok a, i + 1,
          (List.range i).map (fun j => 2 ^ (j + 1) + jit (j + 1)))) ∧
    (∀ e, (∀ j, j < max_retries → ∃ e', att j = Except.error e') →
      att max_retries = Except.error e →
      (download_with_retry att jit max_retries).1 = Except.error e) ∧
    ((∀ k, 0 ≤ jit k ∧ jit k < 2) →
      ∀ d ∈ (download_with_retry att jit max_retries).2.2,
        ∃ j, 1 ≤ j ∧ 2 ^ j ≤ d ∧ d < 2 ^ j + 2) := by
  refine ⟨retry_go_calls att jit max_retries 0, ?_, ?_, ?_⟩
  · intro i a hi herr hok
    rw [download_with_retry,
      retry_go_success att jit i max_retries 0 a hi
        (by simpa using herr) (by simpa using hok),
      delaySeq_zero_eq]
  · intro e herr hlast
    rw [download_with_retry]
    exact retry_go_allfail att jit max_retries 0 e (by simpa using herr)
      (by simpa using hlast)
  · intro hjit d hd
    obtain ⟨j, hj1, rfl⟩ :=
      retry_go_delays_shape att jit max_retries 0 d hd
    obtain ⟨hlo, hhi⟩ := hjit j
    exact ⟨j, hj1, by linarith, by linarith⟩

/-- A download oracle failing on attempts 0 and 1 and succeeding on attempt 2. -/
def attSample : ℕ → Except String ℕ := fun k =>
  if k < 2 then Except.error "net" else Except.ok 42

/-- A constant jitter oracle. -/
def jitSample : ℕ → ℚ := fun _ => 1

/-- Witness for C7: with failures on attempts 0 and 1 and success on attempt 2,
the retry loop returns the success after 3 invocations with delays before
retries 1 and 2. -/
theorem claim7_retry_policy_witness :
    download_with_retry attSample jitSample 3 =
      (Except.ok 42, 2 + 1,
        (List.range 2).map (fun j => 2 ^ (j + 1) + jitSample (j + 1))) :=
  (claim7_retry_policy attSample jitSample 3).2.1 2 42 (by decide)
    (fun j hj => ⟨"net", by simp [attSample, hj]⟩) (by simp [attSample])

/-! ## C8: the crash-recovery scrubber -/

lemma filter_keep_idem (dir : List String) :
    (dir.filter (fun f => !isIncompleteFile f)).filter (fun f => !isIncompleteFile f) =
      dir.filter (fun f => !isIncompleteFile f) := by
  rw [List.filter_filter]
  apply List.filter_congr
  intro f _
  rw [Bool.and_self]

/-- Closed form of the per-playlist scrub loop: every `processing` job becomes
`pending` with its error cleared, the partial-download files are removed from
the directory as soon as the playlist has at least one `processing` job, and
the cleaned count is the number of `processing` jobs. -/
lemma scrubJobs_eq (js : List Job) (dir : List String) :
    scrubJobs js dir =
      (js.map (fun j => if j.status = "processing" then ⟨"pending", none⟩ else j),
       (if js.any (fun j => decide (j.status = "processing"))
        then dir.filter (fun f => !isIncompleteFile f) else dir),
       js.countP (fun j => decide (j.status = "processing"))) := by
  induction js generalizing dir with
  | nil => simp [scrubJobs]
  | cons j rest ih =>
    by_cases h : j.status = "processing"
    · simp only [scrubJobs, if_pos h]
      rw [ih]
      by_cases hany : rest.any (fun j => decide (j.status = "processing")) = true
      · simp [h, hany, List.countP_cons, filter_keep_idem]
      · simp only [Bool.not_eq_true] at hany
        simp [h, hany, List.countP_cons]
    · simp only [scrubJobs, if_neg h]
      rw [ih]
      simp [h, List.countP_cons]

lemma cleanup_fst (m : List Playlist) :
    (cleanup_interrupted_downloads m).1 =
      m.map (fun p =>
        { videos := p.videos.map (fun j =>
            if j.status = "processing" then ⟨"pending", none⟩ else j)
          dirFiles := (if p.videos.any (fun j => decide (j.status = "processing"))
            then p.dirFiles.filter (fun f => !isIncompleteFile f)
            else p.dirFiles) }) := by
  rw [cleanup_interrupted_downloads]
  dsimp only
  apply List.map_congr_left
  intro p _
  rw [scrubJobs_eq]

lemma cleanup_count_pos (m : List Playlist) :
    0 < (cleanup_interrupted_downloads m).2 ↔
      ∃ p ∈ m, ∃ j ∈ p.videos, j.status = "processing" := by
  rw [cleanup_interrupted_downloads]
  dsimp only
  rw [Nat.pos_iff_ne_zero, Ne, List.sum_eq_zero_iff]
  push_neg
  constructor
  · rintro ⟨x, hx, hxne⟩
    rw [List.mem_map] at hx
    obtain ⟨p, hp, rfl⟩ := hx
    rw [scrubJobs_eq] at hxne
    dsimp only at hxne
    have : 0 < p.videos.countP (fun j => decide (j.status = "processing")) := by
      omega
    rw [List.countP_pos_iff] at this
    obtain ⟨j, hj, hjp⟩ := this
    exact ⟨p, hp, j, hj, of_decide_eq_true hjp⟩
  · rintro ⟨p, hp, j, hj, hjs⟩
    refine ⟨(scrubJobs p.videos p.dirFiles).2.2, List.mem_map.mpr ⟨p, hp, rfl⟩, ?_⟩
    rw [scrubJobs_eq]
    dsimp only
    have : 0 < p.videos.countP (fun j => decide (j.status = "processing")) :=
      List.countP_pos_iff.mpr ⟨j, hj, decide_eq_true hjs⟩
    omega

/-- C8 (confirmed): at the start of every run — before any job is selected,
since `run` invokes the scrubber first and the manifest the scheduler works on
is the scrubber's output — every `processing` job is reset to `pending` with
its stored error cleared, the `*.part`/`*.ytdl` partial-download files are
removed from the working directory of every playlist containing such a job,
other jobs and directories are untouched, and when at least one such job
exists the manifest is persisted exactly once, after all jobs are scrubbed
(the single saved document is the fully scrubbed manifest). -/
theorem claim8_scrubber (m : List Playlist) :
    (run_start m).1.length = m.length ∧
    (∀ (pi : ℕ) (p p' : Playlist), m[pi]? = some p → (run_start m).1[pi]? = some p' →
      p'.videos = p.videos.map (fun j =>
        if j.status = "processing" then ⟨"pending", none⟩ else j) ∧
      p'.dirFiles = (if p.videos.any (fun j => decide (j.status = "processing"))
        then p.dirFiles.filter (fun f => !isIncompleteFile f)
        else p.dirFiles)) ∧
    ((∃ p ∈ m, ∃ j ∈ p.videos, j.status = "processing") →
      (run_start m).2 = [(run_start m).1]) := by
  have hfst : (run_start m).1 = (cleanup_interrupted_downloads m).1 := rfl
  refine ⟨?_, ?_, ?_⟩
  · rw [hfst, cleanup_fst, List.length_map]
  · intro pi p p' hp hp'
    rw [hfst, cleanup_fst, List.getElem?_map, hp] at hp'
    obtain rfl := Option.some.inj hp'
    exact ⟨rfl, rfl⟩
  · intro hex
    have hpos : 0 < (cleanup_interrupted_downloads m).2 :=
      (cleanup_count_pos m).mpr hex
    show (if 0 < (cleanup_interrupted_downloads m).2
      then [(cleanup_interrupted_downloads m).1] else []) = _
    rw [if_pos hpos]
    rfl

/-- A one-playlist manifest with a `processing` job and a stale `.part` file. -/
def mSample : List Playlist :=
  [⟨[⟨"processing", some "boom"⟩], ["v.part", "v.mp4"]⟩]

/-- Witness for C8: on `mSample` the scrubbed manifest is persisted once. -/
theorem claim8_scrubber_witness :
    (run_start mSample).2 = [(run_start mSample).1] :=
  (claim8_scrubber mSample).2.2
    ⟨⟨[⟨"processing", some "boom"⟩], ["v.part", "v.mp4"]⟩, by simp [mSample],
     ⟨"processing", some "boom"⟩, by simp, rfl⟩


/-! ## C3: the candidate test and the boundary selection rule -/

/-- Python's `min` over a nonempty list keeps the first element attaining the
minimal key: the fold's result splits the list into a strictly-larger prefix,
the chosen element, and a no-smaller suffix. -/
lemma pickMin_first_argmin :
    ∀ (cs : List (ℚ × ℚ)) (c : ℚ × ℚ),
      ∃ l1 x l2, c :: cs = l1 ++ x :: l2 ∧ pickMin c cs = x ∧
        (∀ y ∈ l1, x.2 < y.2) ∧ (∀ y ∈ l2, x.2 ≤ y.2) := by
  intro cs
  induction cs with
  | nil =>
    intro c
    exact ⟨[], c, [], rfl, rfl, by simp, by simp⟩
  | cons z rest ih =>
    intro c
    by_cases hz : z.2 < c.2
    · have hfold : pickMin c (z :: rest) = pickMin z rest := by
        rw [pickMin, List.foldl_cons, if_pos hz]
        rfl
      obtain ⟨l1, x, l2, hdec, hpick, hl1, hl2⟩ := ih z
      have hxz : x.2 ≤ z.2 := by
        cases l1 with
        | nil =>
          rw [List.nil_append] at hdec
          obtain ⟨rfl, -⟩ := List.cons.inj hdec
          exact le_rfl
        | cons a l1' =>
          rw [List.cons_append] at hdec
          obtain ⟨rfl, -⟩ := List.cons.inj hdec
          exact le_of_lt (hl1 z (List.mem_cons_self _ _))
      refine ⟨c :: l1, x, l2, ?_, hfold.trans hpick, ?_, hl2⟩
      · rw [List.cons_append, hdec]
      · intro y hy
        rcases List.mem_cons.mp hy with rfl | hy'
        · exact lt_of_le_of_lt hxz hz
        · exact hl1 y hy'
    · have hfold : pickMin c (z :: rest) = pickMin c rest := by
        rw [pickMin, List.foldl_cons, if_neg hz]
        rfl
      obtain ⟨l1, x, l2, hdec, hpick, hl1, hl2⟩ := ih c
      cases l1 with
      | nil =>
        rw [List.nil_append] at hdec
        obtain ⟨rfl, rfl⟩ := List.cons.inj hdec
        refine ⟨[], c, z :: rest, by simp, hfold.trans hpick, by simp, ?_⟩
        intro y hy
        rcases List.mem_cons.mp hy with rfl | hy'
        · exact le_of_not_lt hz
        · exact hl2 y hy'
      | cons a l1' =>
        rw [List.cons_append] at hdec
        obtain ⟨rfl, hrest⟩ := List.cons.inj hdec
        have hxc : x.2 < c.2 := hl1 c (List.mem_cons_self _ _)
        refine ⟨c :: z :: l1', x, l2, ?_, hfold.trans hpick, ?_, hl2⟩
        · rw [List.cons_append, List.cons_append, ← hrest]
        · intro y hy
          rcases List.mem_cons.mp hy with rfl | hy'
          · exact hxc
          · rcases List.mem_cons.mp hy' with rfl | hy''
            · exact lt_of_lt_of_le hxc (le_of_not_lt hz)
            · exact hl1 y (List.mem_cons_of_mem _ hy'')

lemma map_eq_append_cons {α β : Type} {f : α → β} :
    ∀ {l : List α} {L1 : List β} {x : β} {L2 : List β},
      l.map f = L1 ++ x :: L2 →
      ∃ m1 a m2, l = m1 ++ a :: m2 ∧ f a = x ∧ m1.map f = L1 ∧ m2.map f = L2 := by
  intro l
  induction l with
  | nil =>
    intro L1 x L2 h
    rw [List.map_nil] at h
    cases L1 <;> simp at h
  | cons b l' ih =>
    intro L1 x L2 h
    rw [List.map_cons] at h
    cases L1 with
    | nil =>
      rw [List.nil_append] at h
      obtain ⟨rfl, hmap⟩ := List.cons.inj h
      exact ⟨[], b, l', rfl, rfl, rfl, hmap⟩
    | cons c L1' =>
      rw [List.cons_append] at h
      obtain ⟨rfl, hmap⟩ := List.cons.inj h
      obtain ⟨m1, a, m2, rfl, hfa, hm1, hm2⟩ := ih hmap
      exact ⟨b :: m1, a, m2, rfl, hfa, by rw [List.map_cons, hm1], hm2⟩

lemma filter_eq_append_cons {α : Type} {P : α → Bool} :
    ∀ {l : List α} {M1 : List α} {a : α} {M2 : List α},
      l.filter P = M1 ++ a :: M2 →
      ∃ m1 m2, l = m1 ++ a :: m2 ∧ P a = true ∧
        m1.filter P = M1 ∧ m2.filter P = M2 := by
  intro l
  induction l with
  | nil =>
    intro M1 a M2 h
    rw [List.filter_nil] at h
    cases M1 <;> simp at h
  | cons b l' ih =>
    intro M1 a M2 h
    by_cases hb : P b = true
    · rw [List.filter_cons_of_pos hb] at h
      cases M1 with
      | nil =>
        rw [List.nil_append] at h
        obtain ⟨rfl, hrest⟩ := List.cons.inj h
        exact ⟨[], l', rfl, hb, rfl, hrest⟩
      | cons c M1' =>
        rw [List.cons_append] at h
        obtain ⟨rfl, hrest⟩ := List.cons.inj h
        obtain ⟨m1, m2, rfl, hPa, hf1, hf2⟩ := ih hrest
        exact ⟨b :: m1, m2, rfl, hPa,
          by rw [List.filter_cons_of_pos hb, hf1], hf2⟩
    · rw [List.filter_cons_of_neg (by simpa using hb)] at h
      obtain ⟨m1, m2, rfl, hPa, hf1, hf2⟩ := ih h
      exact ⟨b :: m1, m2, rfl, hPa,
        by rw [List.filter_cons_of_neg (by simpa using hb), hf1], hf2⟩

/-- C3 is false as stated: the source tests the stripped text with
`re.search`, i.e. a sentence-terminal symbol ANYWHERE in the text, not only at
its end. The segment `(250, 290, "好。吗")` — trimmed text ending in `吗`, with
a `。` mid-text — is within ±120 s of the target 300, so the code chooses 290,
while the claim's ends-in rule (`spec_smart_boundary`) has no candidate there
and falls back to 300. -/
theorem claim3_candidate_cex :
    smart_boundary [⟨250, 290, "好。吗"⟩] 300 ≠
      spec_smart_boundary [⟨250, 290, "好。吗"⟩] 300 := by
  have h1 : smart_boundary [⟨250, 290, "好。吗"⟩] 300 = 290 := by
    have hcand : is_candidate 300 ⟨250, 290, "好。吗"⟩ = true := by
      have hp : has_sentence_ending "好。吗" = true := by decide
      simp [is_candidate, hp]
      norm_num
    have hpairs : candidate_pairs [⟨250, 290, "好。吗"⟩] 300 = [(290, 10)] := by
      simp [candidate_pairs, List.filter_cons, hcand]
      norm_num
    simp [smart_boundary, hpairs, pickMin]
  have h2 : spec_smart_boundary [⟨250, 290, "好。吗"⟩] 300 = 300 := by
    have hend : spec_ends_sentence "好。吗" = false := by decide
    simp [spec_smart_boundary, spec_is_candidate, hend, List.filter_cons]
  rw [h1, h2]
  norm_num

/-- C3 (corrected): a segment is a candidate iff its end time lies within ±W
(W = 120 s) of the target AND its trimmed text CONTAINS a sentence-terminal
symbol anywhere (`is_candidate`, embedding the source's `re.search`); the
emitted boundary is the candidate end closest to the target with ties broken
by earliest scan order — witnessed by a decomposition of the segment list into
a prefix whose candidates are strictly farther, the chosen segment, and a
suffix whose candidates are no closer — and if no candidate exists the naive
target is used verbatim. -/
theorem claim3_selection_amended (segs : List Seg) (t : ℚ) :
    ((∀ s ∈ segs, is_candidate t s = false) → smart_boundary segs t = t) ∧
    ((∃ s ∈ segs, is_candidate t s = true) →
      ∃ l1 s l2, segs = l1 ++ s :: l2 ∧ is_candidate t s = true ∧
        smart_boundary segs t = s.stop ∧
        (∀ y ∈ l1, is_candidate t y = true → |s.stop - t| < |y.stop - t|) ∧
        (∀ y ∈ l2, is_candidate t y = true → |s.stop - t| ≤ |y.stop - t|)) := by
  constructor
  · intro hnone
    have hfilter : segs.filter (fun s => is_candidate t s) = [] := by
      rw [List.filter_eq_nil_iff]
      intro s hs
      rw [hnone s hs]
      simp
    rw [smart_boundary, candidate_pairs, hfilter]
    rfl
  · rintro ⟨s0, hs0, hcand0⟩
    have hne : candidate_pairs segs t ≠ [] := by
      intro h
      rw [candidate_pairs, List.map_eq_nil_iff] at h
      have : s0 ∈ segs.filter (fun s => is_candidate t s) :=
        List.mem_filter.mpr ⟨hs0, hcand0⟩
      rw [h] at this
      exact List.not_mem_nil s0 this
    obtain ⟨c, cs, hcex⟩ := List.exists_cons_of_ne_nil hne
    have hsb : smart_boundary segs t = (pickMin c cs).1 := by
      rw [smart_boundary, hcex]
    obtain ⟨L1, x, L2, hdec, hpick, hL1, hL2⟩ := pickMin_first_argmin cs c
    rw [← hcex, candidate_pairs] at hdec
    obtain ⟨M1, a, M2, hmdec, hfa, hM1, hM2⟩ := map_eq_append_cons hdec
    obtain ⟨m1, m2, hsdec, hPa, hF1, hF2⟩ := filter_eq_append_cons hmdec
    refine ⟨m1, a, m2, hsdec, hPa, ?_, ?_, ?_⟩
    · rw [hsb, hpick, ← hfa]
    · intro y hy hyc
      have hyL : (y.stop, |y.stop - t|) ∈ L1 := by
        rw [← hM1, ← hF1]
        exact List.mem_map_of_mem _ (List.mem_filter.mpr ⟨hy, hyc⟩)
      have hlt := hL1 _ hyL
      rw [← hfa] at hlt
      exact hlt
    · intro y hy hyc
      have hyL : (y.stop, |y.stop - t|) ∈ L2 := by
        rw [← hM2, ← hF2]
        exact List.mem_map_of_mem _ (List.mem_filter.mpr ⟨hy, hyc⟩)
      have hle := hL2 _ hyL
      rw [← hfa] at hle
      exact hle

/-- Witness for the amended C3: with no transcript there is no candidate and
the naive target 300 is returned verbatim. -/
theorem claim3_selection_amended_witness : smart_boundary [] 300 = 300 :=
  (claim3_selection_amended [] 300).1 (by simp)

end Vernacia
